import Mathlib

/-
Verification of the MOEX breakout-monitor bot.

Shallow embedding of the Python sources:
  app/config.py    : strategy constants
  app/analyzer.py  : calculate_ema, calculate_linreg_channel
  app/bot.py       : candle merging (update_channel and the /ticker command),
                     check_breakout, check_prices_batch, get_current_extremes,
                     send_periodic_summary, update_channel

Numeric conventions: Python floats are idealised as exact numbers.  All
arithmetic that the sources perform exactly on their inputs is embedded over ℚ;
the one genuinely irrational step, np.std (a square root), is embedded as
Real.sqrt over ℝ.  Monitor-level code (registry, breakout state machine) only
compares and copies numbers, so it is embedded parametrically over a linear
order and instantiated at ℚ (for executable witnesses) or at ℝ (where it is fed
by the analyzer).  Timestamps (the pandas `begin` column) are embedded as ℕ.
-/

set_option maxRecDepth 20000

namespace BotMoex

/-! ## app/config.py -/

def TIMEFRAME : ℕ := 10

def REGRESSION_LENGTH : ℕ := 200

def STD_DEV_MULTIPLIER : ℝ := 4.0

/-- Default value of the `std_dev_mult` parameter of
`calculate_linreg_channel` in app/analyzer.py (`std_dev_mult=3.5`). -/
def DEFAULT_STD_DEV_MULT : ℝ := 3.5

/-! ## Candles

A pandas candle row.  The modelled code paths read only `begin`, `close` and
`volume`; `open`/`high`/`low` are never consulted and are omitted. -/

structure Candle where
  begin : ℕ
  close : ℚ
  volume : ℚ
deriving DecidableEq, Repr

/-- Ordering of candles by timestamp, the key of pandas
`sort_values('begin')`. -/
def candleLE (a b : Candle) : Prop := a.begin ≤ b.begin

instance : DecidableRel candleLE := fun a b => inferInstanceAs (Decidable (a.begin ≤ b.begin))

instance : IsTotal Candle candleLE := ⟨fun a b => Nat.le_total a.begin b.begin⟩

instance : IsTrans Candle candleLE := ⟨fun _ _ _ hab hbc => Nat.le_trans hab hbc⟩

/-- pandas `sort_values('begin')`: the timestamps are pairwise distinct at
every use site (they have just been deduplicated), so any comparison sort
returns the same list; insertion sort is used as the model. -/
def sortByBegin (l : List Candle) : List Candle := List.insertionSort candleLE l

/-- Worker for `drop_duplicates(subset=['begin'])` (keep='first'): keep a row
iff its `begin` has not been seen earlier. -/
def dedupKeepFirstAux : List ℕ → List Candle → List Candle
  | _, [] => []
  | seen, c :: rest =>
    if c.begin ∈ seen then dedupKeepFirstAux seen rest
    else c :: dedupKeepFirstAux (c.begin :: seen) rest

/-- pandas `drop_duplicates(subset=['begin'])` with the default `keep='first'`:
of the rows sharing a `begin`, the first survives, order preserved. -/
def dedupKeepFirst (l : List Candle) : List Candle := dedupKeepFirstAux [] l

/-- pandas `drop_duplicates(subset=['begin'], keep='last')`: of the rows
sharing a `begin`, the last survives, order preserved. -/
def dedupKeepLast (l : List Candle) : List Candle :=
  (dedupKeepFirstAux [] l.reverse).reverse

/-- Candle merge as performed inside `update_channel` (app/bot.py lines
497-506): concatenate MOEX history with today's Tinkoff candles, deduplicate
by `begin` keeping the LAST (i.e. Tinkoff/intraday) row, sort ascending;
an empty side passes the other side through unchanged. -/
def mergeMonitor (df_moex df_today : List Candle) : List Candle :=
  if 0 < df_moex.length ∧ 0 < df_today.length then
    sortByBegin (dedupKeepLast (df_moex ++ df_today))
  else if 0 < df_moex.length then df_moex
  else if 0 < df_today.length then df_today
  else []

/-- Candle merge as performed inside `cmd_ticker` (app/bot.py lines 227-236):
same concatenation, but `drop_duplicates(subset=['begin'])` is called WITHOUT
`keep='last'`, so the FIRST (i.e. MOEX/historical) row survives a timestamp
conflict.  Note also the different empty-side preference order. -/
def mergeTicker (df_moex df_tinkoff : List Candle) : List Candle :=
  if 0 < df_moex.length ∧ 0 < df_tinkoff.length then
    sortByBegin (dedupKeepFirst (df_moex ++ df_tinkoff))
  else if 0 < df_tinkoff.length then df_tinkoff
  else df_moex

/-! ## app/analyzer.py -/

/-- Python `df.iloc[-n:]`: the trailing `n` elements. -/
def trailing (n : ℕ) (l : List α) : List α := l.drop (l.length - n)

/-- Sum of the synthetic x axis `np.arange(n)`. -/
def sumX (n : ℕ) : ℚ := ∑ i ∈ Finset.range n, (i : ℚ)

/-- Sum of squares of the synthetic x axis. -/
def sumX2 (n : ℕ) : ℚ := ∑ i ∈ Finset.range n, (i : ℚ) ^ 2

/-- Sum of the closes. -/
def sumY (y : List ℚ) : ℚ := ∑ i ∈ Finset.range y.length, y.getD i 0

/-- Sum of x·y. -/
def sumXY (y : List ℚ) : ℚ := ∑ i ∈ Finset.range y.length, (i : ℚ) * y.getD i 0

/-- Determinant of the normal equations of the least-squares line through
`(i, y i)`, `i = 0..n-1`. -/
def lsDenom (n : ℕ) : ℚ := (n : ℚ) * sumX2 n - (sumX n) ^ 2

/-- Slope `m` returned by `np.linalg.lstsq` for the design matrix
`np.vstack([x, np.ones(len(x))]).T` with `x = np.arange(len(y))`.  For a
full-rank design (`n ≥ 2`) this is the unique ordinary-least-squares solution
of the normal equations; the guarded branch returns the minimum-norm
least-squares solution (`m = 0`) that lstsq produces for `n ≤ 1`. -/
def linregSlope (y : List ℚ) : ℚ :=
  if lsDenom y.length = 0 then 0
  else ((y.length : ℚ) * sumXY y - sumX y.length * sumY y) / lsDenom y.length

/-- Intercept `c` of the same least-squares solution. -/
def linregIntercept (y : List ℚ) : ℚ :=
  if y.length = 0 then 0
  else (sumY y - linregSlope y * sumX y.length) / (y.length : ℚ)

/-- Sum of squared residuals of `y` against the line `m·x + c`. -/
def sse (y : List ℚ) (m c : ℚ) : ℚ :=
  ∑ i ∈ Finset.range y.length, (y.getD i 0 - (m * (i : ℚ) + c)) ^ 2

/-- Mean of squared residuals of the fitted line: the square of
`np.std(residuals, ddof=0)` (population convention, divisor N). -/
def linregVariance (y : List ℚ) : ℚ :=
  if y.length = 0 then 0
  else sse y (linregSlope y) (linregIntercept y) / (y.length : ℚ)

/-- Embedding of `np.std(residuals, ddof=0)`. -/
noncomputable def linregStd (y : List ℚ) : ℝ :=
  Real.sqrt ((linregVariance y : ℚ) : ℝ)

/-- Fitted value at the last index: `regression_line[-1] = m·(n-1) + c`. -/
def regressionValue (y : List ℚ) : ℚ :=
  linregSlope y * ((y.length : ℚ) - 1) + linregIntercept y

/-- Embedding of `calculate_ema(closes, period)` (app/analyzer.py lines 29-34): `None` when
fewer than `period` closes, otherwise the last value of
`pd.Series(closes).ewm(span=period, adjust=False).mean()`, whose documented
semantics is the recursion `ema_0 = y_0`, `ema_t = (1-a)·ema_(t-1) + a·y_t`
with `a = 2/(period+1)`. -/
def calculate_ema (closes : List ℚ) (period : ℕ) : Option ℚ :=
  if closes.length < period then none
  else
    match closes with
    | [] => none
    | c :: rest =>
      some (rest.foldl
        (fun e y => (1 - 2 / ((period : ℚ) + 1)) * e + (2 / ((period : ℚ) + 1)) * y) c)

/-- Result record of `calculate_linreg_channel`. -/
structure Channel where
  status : String
  current_close : ℚ
  upper : ℝ
  lower : ℝ
  regression : ℚ
  std : ℝ
  slope : ℚ
  ema50 : Option ℚ
  last_candle_time : ℕ

/-- Embedding of `calculate_linreg_channel(df, length, std_dev_mult)` (app/analyzer.py
lines 72-126).  Returns `none` exactly on the `len(df) < length` guard;
otherwise fits the trailing `length` closes against `x = 0..length-1`. -/
noncomputable def calculate_linreg_channel
    (df : List Candle) (length : ℕ) (std_dev_mult : ℝ) : Option Channel :=
  if df.length < length then none
  else
    let ysub : List ℚ := trailing length (df.map Candle.close)
    let upper_channel : ℝ := ((regressionValue ysub : ℚ) : ℝ) + linregStd ysub * std_dev_mult
    let lower_channel : ℝ := ((regressionValue ysub : ℚ) : ℝ) - linregStd ysub * std_dev_mult
    let current_close : ℚ := ysub.getD (ysub.length - 1) 0
    some
      { status :=
          if ((current_close : ℚ) : ℝ) > upper_channel then "ABOVE_UPPER"
          else if ((current_close : ℚ) : ℝ) < lower_channel then "BELOW_LOWER"
          else "INSIDE"
        current_close := current_close
        upper := upper_channel
        lower := lower_channel
        regression := regressionValue ysub
        std := linregStd ysub
        slope := linregSlope ysub
        ema50 := calculate_ema ysub 50
        last_candle_time := (((trailing length df).getLast?).map Candle.begin).getD 0 }

/-- Junk channel used only as the default of `Option.getD` below; the theorems
always apply it to a `some`. -/
noncomputable def defaultChannel : Channel :=
  { status := "INSIDE", current_close := 0, upper := 0, lower := 0,
    regression := 0, std := 0, slope := 0, ema50 := none, last_candle_time := 0 }

/-- Projection helper: the channel computed for `df`, defaulting to
`defaultChannel` when there are too few candles. -/
noncomputable def chanOf (df : List Candle) (length : ℕ) (std_dev_mult : ℝ) : Channel :=
  (calculate_linreg_channel df length std_dev_mult).getD defaultChannel

/-! ## app/bot.py: instrument registry

The global dict `instruments` maps a ticker to a per-instrument record.  The
numeric fields start out as Python `None` and are filled by `update_channel`;
they are embedded as `Option α` over a linear order `α` (ℚ for the monitor
state machine, ℝ where the analyzer output is stored).  Python truthiness of
`data.get('upper')` is `upper ≠ None ∧ upper ≠ 0.0`, of `data.get('figi')` is
`figi ≠ ""`. -/

/-- The value stored in `last_signal_type` (Python strings 'up' / 'down'). -/
inductive Sig where
  | up : Sig
  | down : Sig
deriving DecidableEq, Repr

structure InstrumentData (α : Type) where
  figi : String
  name : String
  upper : Option α
  lower : Option α
  regression : Option α
  ema50 : Option α
  slope : Option α
  std : Option α
  last_volume : Option α
  last_candle_price : Option α
  last_candle_time : Option ℕ
  last_signal_type : Option Sig
deriving DecidableEq, Repr

/-- The global `instruments` dict, as an insertion-ordered association list
(Python dicts preserve insertion order and have unique keys). -/
def Registry (α : Type) := List (String × InstrumentData α)

instance [DecidableEq α] : DecidableEq (Registry α) :=
  inferInstanceAs (DecidableEq (List (String × InstrumentData α)))

/-- Python truthiness of an optional numeric field: `None` and `0.0` are
falsy. -/
def optTruthy [Zero α] [DecidableEq α] (o : Option α) : Bool :=
  match o with
  | none => false
  | some v => decide (v ≠ 0)

/-- Point update of one registry entry (`instruments[ticker][...] = ...`). -/
def updateEntry (reg : Registry α) (ticker : String) (f : InstrumentData α → InstrumentData α) :
    Registry α :=
  reg.map (fun pr => if pr.1 = ticker then (pr.1, f pr.2) else pr)

/-- Assignment `instruments[ticker]['last_signal_type'] = s`. -/
def setSignal (reg : Registry α) (ticker : String) (s : Option Sig) : Registry α :=
  updateEntry reg ticker (fun d => { d with last_signal_type := s })

/-! ## app/bot.py: check_breakout (lines 664-688)

The function returns the mutated registry together with the emitted signal
(`send_signal` is called exactly when `signal_type` is set).  The inner match
on `upper`/`lower` mirrors the dict reads `data['upper']`, `data['lower']`;
when `data.get('upper')` is truthy both keys hold numbers (they are only ever
assigned together by `update_channel`), so the fallback arm is unreachable on
the states the program constructs. -/

def check_breakout [LinearOrder α] [Zero α] [DecidableEq α]
    (reg : Registry α) (ticker : String) (current_price : α) :
    Registry α × Option Sig :=
  match List.lookup ticker reg with
  | none => (reg, none)
  | some data =>
    if optTruthy data.upper then
      match data.upper, data.lower with
      | some upper, some lower =>
        if current_price > upper ∧ data.last_signal_type ≠ some Sig.up then
          (setSignal reg ticker (some Sig.up), some Sig.up)
        else if current_price < lower ∧ data.last_signal_type ≠ some Sig.down then
          (setSignal reg ticker (some Sig.down), some Sig.down)
        else if lower ≤ current_price ∧ current_price ≤ upper then
          (setSignal reg ticker none, none)
        else (reg, none)
      | _, _ => (reg, none)
    else (reg, none)

/-- Feed one instrument a sequence of polled prices through `check_breakout`,
recording the signal emitted (or not) at each step. -/
def runPrices [LinearOrder α] [Zero α] [DecidableEq α]
    (reg : Registry α) (ticker : String) (prices : List α) :
    Registry α × List (Option Sig) :=
  prices.foldl
    (fun acc p =>
      let r := check_breakout acc.1 ticker p
      (r.1, acc.2 ++ [r.2]))
    (reg, [])

/-! ## app/bot.py: check_prices_batch (lines 637-661) -/

/-- The `figis_with_channels` list built at the top of `check_prices_batch`
(also of `get_current_extremes` and `send_periodic_summary`): the figi of
every instrument whose `upper` and `figi` are truthy, in registry order. -/
def figisWithChannels [Zero α] [DecidableEq α] (reg : Registry α) : List String :=
  (reg.filter (fun pr => optTruthy pr.2.upper && pr.2.figi != "")).map (fun pr => pr.2.figi)

/-- Fuel-indexed worker for the batching loop
`for i in range(0, len(figis), 100): batch = figis[i:i+100]`. -/
def batchesOfAux (n : ℕ) : ℕ → List String → List (List String)
  | 0, _ => []
  | _, [] => []
  | fuel + 1, l => l.take n :: batchesOfAux n fuel (l.drop n)

/-- Split a list into consecutive chunks of at most `n` elements. -/
def batchesOf (n : ℕ) (l : List String) : List (List String) :=
  batchesOfAux n l.length l

/-- The batched `get_last_prices_batch` calls issued by one pass of
`check_prices_batch`: chunks of at most 100 figis. -/
def priceBatches [Zero α] [DecidableEq α] (reg : Registry α) : List (List String) :=
  batchesOf 100 (figisWithChannels reg)

/-! ## app/bot.py: get_current_extremes (lines 393-446)

The price fetches are external; the function is modelled as consuming the
flat association list figi → price that the batched fetches returned.  Each
loop iteration reads the CURRENT registry (earlier iterations may already have
written `last_signal_type`) and appends to the up/down lists; the lists are
sorted by deviation once the loop is done. -/

structure ExtremeEntry (α : Type) where
  ticker : String
  name : String
  price : α
  bound : α
  deviation : α
deriving DecidableEq, Repr

/-- deviation = `((price - regression) / regression * 100) if
data.get('regression') else 0`. -/
def deviationOf [LinearOrder α] [Field α] [DecidableEq α]
    (price : α) (regression : Option α) : α :=
  if optTruthy regression then (price - regression.getD 0) / regression.getD 0 * 100 else 0

/-- One iteration of the `for figi, price in prices.items()` loop of
`get_current_extremes`. -/
def extremesStep [LinearOrder α] [Field α] [DecidableEq α]
    (figi_to_ticker : List (String × String))
    (st : Registry α × List (ExtremeEntry α) × List (ExtremeEntry α))
    (fp : String × α) :
    Registry α × List (ExtremeEntry α) × List (ExtremeEntry α) :=
  if 0 < fp.2 then
    match List.lookup fp.1 figi_to_ticker with
    | none => st
    | some ticker =>
      if ticker = "" then st
      else
        match List.lookup ticker st.1 with
        | none => st
        | some data =>
          if optTruthy data.upper then
            match data.upper, data.lower with
            | some upper, some lower =>
              if fp.2 > upper then
                (setSignal st.1 ticker (some Sig.up),
                 st.2.1 ++ [{ ticker := ticker, name := data.name, price := fp.2,
                              bound := upper,
                              deviation := deviationOf fp.2 data.regression }],
                 st.2.2)
              else if fp.2 < lower then
                (setSignal st.1 ticker (some Sig.down),
                 st.2.1,
                 st.2.2 ++ [{ ticker := ticker, name := data.name, price := fp.2,
                              bound := lower,
                              deviation := deviationOf fp.2 data.regression }])
              else st
            | _, _ => st
          else st
  else st

/-- Sort order of `extremes_up.sort(key=deviation, reverse=True)`. -/
def devGE [LinearOrder α] (a b : ExtremeEntry α) : Prop := b.deviation ≤ a.deviation

/-- Sort order of `extremes_down.sort(key=deviation)`. -/
def devLE [LinearOrder α] (a b : ExtremeEntry α) : Prop := a.deviation ≤ b.deviation

instance [LinearOrder α] : DecidableRel (devGE (α := α)) :=
  fun a b => inferInstanceAs (Decidable (b.deviation ≤ a.deviation))

instance [LinearOrder α] : DecidableRel (devLE (α := α)) :=
  fun a b => inferInstanceAs (Decidable (a.deviation ≤ b.deviation))

/-- Embedding of `get_current_extremes`: returns the (possibly mutated!) registry together
with the sorted up/down extreme lists. -/
def get_current_extremes [LinearOrder α] [Field α] [DecidableEq α]
    (reg : Registry α) (figi_to_ticker : List (String × String))
    (prices : List (String × α)) :
    Registry α × List (ExtremeEntry α) × List (ExtremeEntry α) :=
  let res := prices.foldl (extremesStep figi_to_ticker) (reg, [], [])
  (res.1, List.insertionSort devGE res.2.1, List.insertionSort devLE res.2.2)

/-! ## app/bot.py: send_periodic_summary (lines 553-634)

Reads the registry (via `data.get(key, 0)` with default 0), never writes it;
the registry is returned unchanged to make that frame property a stated
fact rather than a typing accident. -/

def summaryStep [LinearOrder α] [Field α] [DecidableEq α]
    (reg : Registry α) (figi_to_ticker_local : List (String × String))
    (st : List (String × α × α) × List (String × α × α))
    (fp : String × α) :
    List (String × α × α) × List (String × α × α) :=
  if 0 < fp.2 then
    match List.lookup fp.1 figi_to_ticker_local with
    | none => st
    | some ticker =>
      if ticker = "" then st
      else
        match List.lookup ticker reg with
        | none => st
        | some data =>
          let upper := data.upper.getD 0
          let lower := data.lower.getD 0
          let regression := data.regression.getD 0
          if fp.2 > upper ∧ 0 < regression then
            (st.1 ++ [(ticker, fp.2, (fp.2 - regression) / regression * 100)], st.2)
          else if fp.2 < lower ∧ 0 < regression then
            (st.1, st.2 ++ [(ticker, fp.2, (fp.2 - regression) / regression * 100)])
          else st
  else st

/-- Sort order of `above_list.sort(key=lambda x: -x[2])`. -/
def trdGE [LinearOrder α] (a b : String × α × α) : Prop := b.2.2 ≤ a.2.2

/-- Sort order of `below_list.sort(key=lambda x: x[2])`. -/
def trdLE [LinearOrder α] (a b : String × α × α) : Prop := a.2.2 ≤ b.2.2

instance [LinearOrder α] : DecidableRel (trdGE (α := α)) :=
  fun a b => inferInstanceAs (Decidable (b.2.2 ≤ a.2.2))

instance [LinearOrder α] : DecidableRel (trdLE (α := α)) :=
  fun a b => inferInstanceAs (Decidable (a.2.2 ≤ b.2.2))

/-- Embedding of `send_periodic_summary`: builds `figi_to_ticker_local` from the registry,
classifies each fetched price against the stored channel, sorts, and sends
messages (the sending is external).  The registry component of the result is
the registry the function leaves behind: the loop contains no assignment to
`instruments`, so it is passed through every branch unchanged. -/
def send_periodic_summary [LinearOrder α] [Field α] [DecidableEq α]
    (reg : Registry α) (prices : List (String × α)) :
    Registry α × List (String × α × α) × List (String × α × α) :=
  let figi_to_ticker_local : List (String × String) :=
    (reg.filter (fun pr => optTruthy pr.2.upper && pr.2.figi != "")).map
      (fun pr => (pr.2.figi, pr.1))
  let res := prices.foldl (summaryStep reg figi_to_ticker_local) ([], [])
  (reg, List.insertionSort trdGE res.1, List.insertionSort trdLE res.2)

/-! ## app/bot.py: update_channel (lines 475-523)

The two candle fetches are external and become parameters.  On success the
channel fields of the instrument are overwritten; `last_signal_type` is not
touched.  The analyzer is called as `calculate_linreg_channel(df,
REGRESSION_LENGTH)` — without a multiplier argument, so the Python default
`std_dev_mult=3.5` applies (NOT `config.STD_DEV_MULTIPLIER`). -/

noncomputable def setChannelFields (d : InstrumentData ℝ) (ch : Channel) (lastCandle : Candle) :
    InstrumentData ℝ :=
  { d with
    upper := some ch.upper
    lower := some ch.lower
    regression := some ((ch.regression : ℚ) : ℝ)
    ema50 := ch.ema50.map (fun q => ((q : ℚ) : ℝ))
    slope := some ((ch.slope : ℚ) : ℝ)
    std := some ch.std
    last_volume := some ((lastCandle.volume : ℚ) : ℝ)
    last_candle_price := some ((lastCandle.close : ℚ) : ℝ)
    last_candle_time := some lastCandle.begin }

noncomputable def update_channel (reg : Registry ℝ) (ticker : String)
    (df_moex df_today : List Candle) : Registry ℝ :=
  match List.lookup ticker reg with
  | none => reg
  | some data =>
    if data.figi = "" then reg
    else
      let df := mergeMonitor df_moex df_today
      if REGRESSION_LENGTH ≤ df.length then
        match calculate_linreg_channel df REGRESSION_LENGTH DEFAULT_STD_DEV_MULT,
              df.getLast? with
        | some ch, some lastCandle =>
          updateEntry reg ticker (fun d => setChannelFields d ch lastCandle)
        | _, _ => reg
      else reg

/-! ## Registry lemmas -/

theorem lookup_updateEntry (reg : Registry α) (t k : String)
    (f : InstrumentData α → InstrumentData α) :
    List.lookup k (updateEntry reg t f)
      = if k = t then (List.lookup k reg).map f else List.lookup k reg := by
  induction reg with
  | nil => simp [updateEntry]
  | cons hd tl ih =>
    obtain ⟨k0, d0⟩ := hd
    have hstep : updateEntry ((k0, d0) :: tl) t f
        = (k0, if k0 = t then f d0 else d0) :: updateEntry tl t f := by
      by_cases h : k0 = t <;> simp [updateEntry, h]
    simp only [hstep, List.lookup_cons]
    rcases eq_or_ne k k0 with hk | hk
    · subst hk
      by_cases h0 : k = t <;> simp [h0]
    · simp [beq_false_of_ne hk, ih]

theorem lookup_setSignal (reg : Registry α) (t k : String) (s : Option Sig) :
    List.lookup k (setSignal reg t s)
      = if k = t then (List.lookup k reg).map (fun d => { d with last_signal_type := s })
        else List.lookup k reg :=
  lookup_updateEntry reg t k _

theorem lookup_setSignal_self (reg : Registry α) (t : String) (s : Option Sig) :
    List.lookup t (setSignal reg t s)
      = (List.lookup t reg).map (fun d => { d with last_signal_type := s }) := by
  rw [lookup_setSignal, if_pos rfl]

/-! ## Batching lemmas -/

theorem batchesOfAux_nilList (n fuel : ℕ) : batchesOfAux n fuel [] = [] := by
  cases fuel <;> rfl

theorem batchesOfAux_cons (n fuel : ℕ) (l : List String) (h : l ≠ []) :
    batchesOfAux n (fuel + 1) l = l.take n :: batchesOfAux n fuel (l.drop n) := by
  cases l with
  | nil => exact absurd rfl h
  | cons a as => rfl

theorem batchesOfAux_join (n : ℕ) (hn : 0 < n) :
    ∀ (fuel : ℕ) (l : List String), l.length ≤ fuel → (batchesOfAux n fuel l).flatten = l := by
  intro fuel
  induction fuel with
  | zero =>
    intro l h
    have : l = [] := List.length_eq_zero.mp (Nat.le_zero.mp h)
    subst this
    simp [batchesOfAux]
  | succ fuel ih =>
    intro l h
    cases l with
    | nil => simp [batchesOfAux]
    | cons a as =>
      rw [batchesOfAux_cons n fuel _ (List.cons_ne_nil a as), List.flatten_cons,
        ih _ ?_, List.take_append_drop]
      rw [List.length_drop]
      simp only [List.length_cons] at h ⊢
      omega

theorem batchesOfAux_length (n : ℕ) (hn : 0 < n) :
    ∀ (fuel : ℕ) (l : List String), l.length ≤ fuel →
      (batchesOfAux n fuel l).length = (l.length + n - 1) / n := by
  intro fuel
  induction fuel with
  | zero =>
    intro l h
    have : l = [] := List.length_eq_zero.mp (Nat.le_zero.mp h)
    subst this
    simp [batchesOfAux, Nat.div_eq_of_lt (by omega : n - 1 < n)]
  | succ fuel ih =>
    intro l h
    cases l with
    | nil => simp [batchesOfAux, Nat.div_eq_of_lt (by omega : n - 1 < n)]
    | cons a as =>
      rw [batchesOfAux_cons n fuel _ (List.cons_ne_nil a as), List.length_cons,
        ih _ (by rw [List.length_drop]; simp only [List.length_cons] at h ⊢; omega),
        List.length_drop]
      have hL : 0 < (a :: as).length := by simp
      set L := (a :: as).length with hLdef
      have hrhs : L + n - 1 = (L - 1) + n := by omega
      rw [hrhs, Nat.add_div_right _ hn]
      rcases Nat.lt_or_ge L (n + 1) with hc | hc
      · have h1 : L - n = 0 := by omega
        have h2 : (L - 1) / n = 0 := Nat.div_eq_of_lt (by omega)
        rw [h1, h2]
        simp [Nat.div_eq_of_lt (by omega : n - 1 < n)]
      · have h1 : L - n + n - 1 = L - 1 := by omega
        rw [h1]

theorem batchesOfAux_mem_length (n : ℕ) :
    ∀ (fuel : ℕ) (l b : List String), b ∈ batchesOfAux n fuel l → b.length ≤ n := by
  intro fuel
  induction fuel with
  | zero => intro l b hb; simp [batchesOfAux] at hb
  | succ fuel ih =>
    intro l b hb
    cases l with
    | nil => simp [batchesOfAux] at hb
    | cons a as =>
      rw [batchesOfAux_cons n fuel _ (List.cons_ne_nil a as)] at hb
      rcases List.mem_cons.mp hb with h | h
      · subst h
        simp [List.length_take]
      · exact ih _ _ h

/-! ## Witness fixtures (concrete registries over ℚ) -/

def dQA : InstrumentData ℚ :=
  { figi := "f", name := "LKOH", upper := some 2, lower := some 0, regression := some 1,
    ema50 := none, slope := none, std := none, last_volume := none,
    last_candle_price := none, last_candle_time := none, last_signal_type := none }

def dQB : InstrumentData ℚ :=
  { dQA with figi := "g", upper := none }

def regQ : Registry ℚ := [("A", dQA), ("B", dQB)]

/-! ## Claim C7 -/

/-- C7: `calculate_linreg_channel` returns `none` exactly when the series has
fewer than `length` candles, a price-poll pass builds its fetch list only from
instruments whose stored `upper` is truthy (a computed channel is present),
and `check_breakout` is a no-op (no event, no state change) for an instrument
without a truthy channel. -/
theorem C7_unavailable_iff_short_and_poll_only_with_channel
    (df : List Candle) (n : ℕ) (mult : ℝ) (reg : Registry ℚ) (figi t : String)
    (d : InstrumentData ℚ) (p : ℚ)
    (hfig : figi ∈ figisWithChannels reg)
    (hlk : List.lookup t reg = some d)
    (hup : optTruthy d.upper = false) :
    (calculate_linreg_channel df n mult = none ↔ df.length < n)
    ∧ reg.any (fun pr => pr.2.figi == figi && optTruthy pr.2.upper) = true
    ∧ check_breakout reg t p = (reg, none) := by
  refine ⟨?_, ?_, ?_⟩
  · by_cases h : df.length < n <;> simp [calculate_linreg_channel, h]
  · obtain ⟨pr, hpr, hfigi⟩ := List.mem_map.mp hfig
    obtain ⟨hmem, hpred⟩ := List.mem_filter.mp hpr
    rw [List.any_eq_true]
    refine ⟨pr, hmem, ?_⟩
    rw [Bool.and_eq_true] at hpred ⊢
    exact ⟨by rw [hfigi]; simp, hpred.1⟩
  · unfold check_breakout
    rw [hlk]
    simp [hup]

theorem C7_witness :
    ("f" ∈ figisWithChannels regQ)
    ∧ (List.lookup "B" regQ = some dQB)
    ∧ (optTruthy dQB.upper = false)
    ∧ ((calculate_linreg_channel [] 1 1 = none ↔ List.length ([] : List Candle) < 1)
       ∧ regQ.any (fun pr => pr.2.figi == "f" && optTruthy pr.2.upper) = true
       ∧ check_breakout regQ "B" (0 : ℚ) = (regQ, none)) :=
  ⟨by decide, by decide, by decide,
   C7_unavailable_iff_short_and_poll_only_with_channel [] 1 1 regQ "f" "B" dQB 0
     (by decide) (by decide) (by decide)⟩

/-! ## Claim C8 -/

/-- C8: one price-poll pass splits the figi list of the channel-bearing
instruments into consecutive batches: their concatenation is exactly that list
(every identifier in exactly one batch), their number is `ceil(M/100)`, each
batch holds at most 100 identifiers, and a 250-identifier list yields batches
of sizes 100, 100, 50. -/
theorem C8_batches_partition_and_cap
    (reg : Registry ℚ) (b : List String) (l : List String)
    (hb : b ∈ priceBatches reg) (hl : l.length = 250) :
    (priceBatches reg).flatten = figisWithChannels reg
    ∧ (priceBatches reg).length = ((figisWithChannels reg).length + 99) / 100
    ∧ b.length ≤ 100
    ∧ (batchesOf 100 l).map List.length = [100, 100, 50] := by
  refine ⟨batchesOfAux_join 100 (by norm_num) _ _ le_rfl, ?_, batchesOfAux_mem_length 100 _ _ b hb, ?_⟩
  · have := batchesOfAux_length 100 (by norm_num) (figisWithChannels reg).length
      (figisWithChannels reg) le_rfl
    simpa [priceBatches, batchesOf] using this
  · have hne1 : l ≠ [] := by
      intro h; rw [h] at hl; simp at hl
    have h2 : (l.drop 100).length = 150 := by rw [List.length_drop, hl]
    have hne2 : l.drop 100 ≠ [] := by
      intro h; rw [h] at h2; simp at h2
    have h3 : ((l.drop 100).drop 100).length = 50 := by rw [List.length_drop, h2]
    have hne3 : (l.drop 100).drop 100 ≠ [] := by
      intro h; rw [h] at h3; simp at h3
    have h4 : (((l.drop 100).drop 100).drop 100).length = 0 := by
      rw [List.length_drop, h3]
    have h4' : ((l.drop 100).drop 100).drop 100 = [] := List.length_eq_zero.mp h4
    rw [batchesOf, hl]
    rw [show (250 : ℕ) = 249 + 1 from rfl, batchesOfAux_cons _ _ _ hne1]
    rw [show (249 : ℕ) = 248 + 1 from rfl, batchesOfAux_cons _ _ _ hne2]
    rw [show (248 : ℕ) = 247 + 1 from rfl, batchesOfAux_cons _ _ _ hne3]
    rw [h4', batchesOfAux_nilList]
    simp [List.length_take, hl, h2, h3]

def regQ250 : Registry ℚ := List.replicate 250 ("A", dQA)

theorem C8_witness :
    (List.replicate 100 "f" ∈ priceBatches regQ250)
    ∧ ((List.replicate 250 "x").length = 250)
    ∧ ((priceBatches regQ250).flatten = figisWithChannels regQ250
       ∧ (priceBatches regQ250).length = ((figisWithChannels regQ250).length + 99) / 100
       ∧ (List.replicate 100 "f").length ≤ 100
       ∧ (batchesOf 100 (List.replicate 250 "x")).map List.length = [100, 100, 50]) :=
  ⟨by decide, by decide,
   C8_batches_partition_and_cap regQ250 (List.replicate 100 "f") (List.replicate 250 "x")
     (by decide) (by decide)⟩

/-! ## check_breakout case lemmas -/

theorem check_breakout_eq [LinearOrder α] [Zero α] [DecidableEq α]
    (reg : Registry α) (t : String) (d : InstrumentData α) (u l p : α)
    (hlk : List.lookup t reg = some d) (hu : d.upper = some u) (hl : d.lower = some l)
    (hne : u ≠ 0) :
    check_breakout reg t p =
      if p > u ∧ d.last_signal_type ≠ some Sig.up then
        (setSignal reg t (some Sig.up), some Sig.up)
      else if p < l ∧ d.last_signal_type ≠ some Sig.down then
        (setSignal reg t (some Sig.down), some Sig.down)
      else if l ≤ p ∧ p ≤ u then (setSignal reg t none, none)
      else (reg, none) := by
  unfold check_breakout
  rw [hlk]
  simp only [hu, hl, optTruthy, ne_eq, decide_not]
  rw [if_pos (by simp [hne])]

theorem breakout_case_up [LinearOrder α] [Zero α] [DecidableEq α]
    (reg : Registry α) (t : String) (d : InstrumentData α) (u l p : α)
    (hlk : List.lookup t reg = some d) (hu : d.upper = some u) (hl : d.lower = some l)
    (hne : u ≠ 0) (h1 : p > u) (h2 : d.last_signal_type ≠ some Sig.up) :
    check_breakout reg t p = (setSignal reg t (some Sig.up), some Sig.up) := by
  rw [check_breakout_eq reg t d u l p hlk hu hl hne, if_pos ⟨h1, h2⟩]

theorem breakout_case_down [LinearOrder α] [Zero α] [DecidableEq α]
    (reg : Registry α) (t : String) (d : InstrumentData α) (u l p : α)
    (hlk : List.lookup t reg = some d) (hu : d.upper = some u) (hl : d.lower = some l)
    (hne : u ≠ 0) (hlu : l ≤ u) (h1 : p < l) (h2 : d.last_signal_type ≠ some Sig.down) :
    check_breakout reg t p = (setSignal reg t (some Sig.down), some Sig.down) := by
  rw [check_breakout_eq reg t d u l p hlk hu hl hne,
    if_neg (by rintro ⟨hc, -⟩; exact absurd (lt_trans h1 (lt_of_le_of_lt hlu hc)) (lt_irrefl p)),
    if_pos ⟨h1, h2⟩]

theorem breakout_case_inside [LinearOrder α] [Zero α] [DecidableEq α]
    (reg : Registry α) (t : String) (d : InstrumentData α) (u l p : α)
    (hlk : List.lookup t reg = some d) (hu : d.upper = some u) (hl : d.lower = some l)
    (hne : u ≠ 0) (h1 : l ≤ p) (h2 : p ≤ u) :
    check_breakout reg t p = (setSignal reg t none, none) := by
  rw [check_breakout_eq reg t d u l p hlk hu hl hne,
    if_neg (by rintro ⟨hc, -⟩; exact absurd h2 (not_le.mpr hc)),
    if_neg (by rintro ⟨hc, -⟩; exact absurd h1 (not_le.mpr hc)),
    if_pos ⟨h1, h2⟩]

theorem breakout_case_armed_up [LinearOrder α] [Zero α] [DecidableEq α]
    (reg : Registry α) (t : String) (d : InstrumentData α) (u l p : α)
    (hlk : List.lookup t reg = some d) (hu : d.upper = some u) (hl : d.lower = some l)
    (hne : u ≠ 0) (hlu : l ≤ u) (h1 : p > u) (h2 : d.last_signal_type = some Sig.up) :
    check_breakout reg t p = (reg, none) := by
  rw [check_breakout_eq reg t d u l p hlk hu hl hne,
    if_neg (by rintro ⟨-, hc⟩; exact hc h2),
    if_neg (by rintro ⟨hc, -⟩; exact absurd (lt_trans hc (lt_of_le_of_lt hlu h1)) (lt_irrefl p)),
    if_neg (by rintro ⟨-, hc⟩; exact absurd h1 (not_lt.mpr hc))]

theorem breakout_case_armed_down [LinearOrder α] [Zero α] [DecidableEq α]
    (reg : Registry α) (t : String) (d : InstrumentData α) (u l p : α)
    (hlk : List.lookup t reg = some d) (hu : d.upper = some u) (hl : d.lower = some l)
    (hne : u ≠ 0) (hlu : l ≤ u) (h1 : p < l) (h2 : d.last_signal_type = some Sig.down) :
    check_breakout reg t p = (reg, none) := by
  rw [check_breakout_eq reg t d u l p hlk hu hl hne,
    if_neg (by rintro ⟨hc, -⟩; exact absurd (lt_trans h1 (lt_of_le_of_lt hlu hc)) (lt_irrefl p)),
    if_neg (by rintro ⟨-, hc⟩; exact hc h2),
    if_neg (by rintro ⟨hc, -⟩; exact absurd h1 (not_lt.mpr hc))]

/-! ## Claim C1 -/

/-- C1: the breakout transition rule of `check_breakout` is the 3-state
hysteresis machine of the spec: a price above `upper` emits exactly one
breakout-up and arms the state, a price below `lower` emits exactly one
breakout-down and arms the state, a price inside the channel re-arms the
detector (state `None`) and emits nothing, and a price on the side the state
is already armed for emits nothing and changes nothing.  Consequently, from
state `None`, the sequence `[u+1, u+1, u+1, r, u+1]` (with `l ≤ r ≤ u`) emits
exactly two events, on the first and the last element.  (`u ≠ 0` reflects the
truthiness check `data.get('upper')` by which the code recognises a computed
channel; `l ≤ u` holds for every computed channel.) -/
theorem C1_breakout_state_machine (reg : Registry ℚ) (ticker : String)
    (d : InstrumentData ℚ) (u l p r : ℚ)
    (hlk : List.lookup ticker reg = some d)
    (hu : d.upper = some u) (hl : d.lower = some l)
    (hne : u ≠ 0) (hlu : l ≤ u) :
    (p > u → d.last_signal_type ≠ some Sig.up →
       check_breakout reg ticker p = (setSignal reg ticker (some Sig.up), some Sig.up))
    ∧ (p < l → d.last_signal_type ≠ some Sig.down →
       check_breakout reg ticker p = (setSignal reg ticker (some Sig.down), some Sig.down))
    ∧ (l ≤ p → p ≤ u →
       check_breakout reg ticker p = (setSignal reg ticker none, none))
    ∧ (p > u → d.last_signal_type = some Sig.up →
       check_breakout reg ticker p = (reg, none))
    ∧ (p < l → d.last_signal_type = some Sig.down →
       check_breakout reg ticker p = (reg, none))
    ∧ (l ≤ r → r ≤ u → d.last_signal_type = none →
       (runPrices reg ticker [u + 1, u + 1, u + 1, r, u + 1]).2
         = [some Sig.up, none, none, none, some Sig.up]) := by
  refine ⟨fun h1 h2 => breakout_case_up reg ticker d u l p hlk hu hl hne h1 h2,
    fun h1 h2 => breakout_case_down reg ticker d u l p hlk hu hl hne hlu h1 h2,
    fun h1 h2 => breakout_case_inside reg ticker d u l p hlk hu hl hne h1 h2,
    fun h1 h2 => breakout_case_armed_up reg ticker d u l p hlk hu hl hne hlu h1 h2,
    fun h1 h2 => breakout_case_armed_down reg ticker d u l p hlk hu hl hne hlu h1 h2,
    fun hr1 hr2 hst => ?_⟩
  set d1 : InstrumentData ℚ := { d with last_signal_type := some Sig.up } with hd1
  set reg1 : Registry ℚ := setSignal reg ticker (some Sig.up) with hreg1
  set d2 : InstrumentData ℚ := { d with last_signal_type := none } with hd2
  set reg2 : Registry ℚ := setSignal reg1 ticker none with hreg2
  have hlk1 : List.lookup ticker reg1 = some d1 := by
    rw [hreg1, lookup_setSignal_self, hlk]; rfl
  have hlk2 : List.lookup ticker reg2 = some d2 := by
    rw [hreg2, lookup_setSignal_self, hlk1]; rfl
  have hup1 : u + 1 > u := lt_add_one u
  have e1 : check_breakout reg ticker (u + 1) = (reg1, some Sig.up) :=
    breakout_case_up reg ticker d u l (u + 1) hlk hu hl hne hup1 (by rw [hst]; simp)
  have e2 : check_breakout reg1 ticker (u + 1) = (reg1, none) :=
    breakout_case_armed_up reg1 ticker d1 u l (u + 1) hlk1 hu hl hne hlu hup1 rfl
  have e3 : check_breakout reg1 ticker r = (reg2, none) :=
    breakout_case_inside reg1 ticker d1 u l r hlk1 hu hl hne hr1 hr2
  have e4 : check_breakout reg2 ticker (u + 1) =
      (setSignal reg2 ticker (some Sig.up), some Sig.up) :=
    breakout_case_up reg2 ticker d2 u l (u + 1) hlk2 hu hl hne hup1 (by simp [hd2])
  simp only [runPrices, List.foldl_cons, List.foldl_nil, e1, e2, e3, e4,
    List.nil_append, List.cons_append, List.append_nil]

theorem C1_witness :
    (List.lookup "A" regQ = some dQA)
    ∧ (dQA.upper = some 2) ∧ (dQA.lower = some 0)
    ∧ ((2 : ℚ) ≠ 0) ∧ ((0 : ℚ) ≤ 2)
    ∧ (((3 : ℚ) > 2 → dQA.last_signal_type ≠ some Sig.up →
          check_breakout regQ "A" (3 : ℚ) = (setSignal regQ "A" (some Sig.up), some Sig.up))
       ∧ ((3 : ℚ) < 0 → dQA.last_signal_type ≠ some Sig.down →
          check_breakout regQ "A" (3 : ℚ) = (setSignal regQ "A" (some Sig.down), some Sig.down))
       ∧ ((0 : ℚ) ≤ 3 → (3 : ℚ) ≤ 2 →
          check_breakout regQ "A" (3 : ℚ) = (setSignal regQ "A" none, none))
       ∧ ((3 : ℚ) > 2 → dQA.last_signal_type = some Sig.up →
          check_breakout regQ "A" (3 : ℚ) = (regQ, none))
       ∧ ((3 : ℚ) < 0 → dQA.last_signal_type = some Sig.down →
          check_breakout regQ "A" (3 : ℚ) = (regQ, none))
       ∧ ((0 : ℚ) ≤ 1 → (1 : ℚ) ≤ 2 → dQA.last_signal_type = none →
          (runPrices regQ "A" [(2 : ℚ) + 1, 2 + 1, 2 + 1, 1, 2 + 1]).2
            = [some Sig.up, none, none, none, some Sig.up])) :=
  ⟨by decide, rfl, rfl, by decide, by decide,
   C1_breakout_state_machine regQ "A" dQA 2 0 3 1 (by decide) rfl rfl (by decide) (by decide)⟩

/-! ## update_channel lemmas -/

theorem lookup_updateEntry_proj {β : Type} (reg : Registry α) (t k : String)
    (f : InstrumentData α → InstrumentData α) (proj : InstrumentData α → β)
    (hf : ∀ d, proj (f d) = proj d) :
    (List.lookup k (updateEntry reg t f)).map proj = (List.lookup k reg).map proj := by
  rw [lookup_updateEntry]
  split_ifs with h
  · cases List.lookup k reg <;> simp [hf]
  · rfl

/-! ## Claim C9 -/

/-- C9: a channel recompute never modifies an instrument's signal state: for
every registry, every ticker being recomputed, every pair of fetched candle
series and every instrument, `last_signal_type` (together with the identity
fields) reads the same before and after `update_channel` — whether the
recompute stored a channel, found too few candles, or the ticker was absent. -/
theorem C9_update_channel_preserves_signal (reg : Registry ℝ) (ticker : String)
    (df_moex df_today : List Candle) (t : String) :
    (List.lookup t (update_channel reg ticker df_moex df_today)).map
        (fun d => (d.figi, d.name, d.last_signal_type))
      = (List.lookup t reg).map (fun d => (d.figi, d.name, d.last_signal_type)) := by
  unfold update_channel
  cases hlk : List.lookup ticker reg with
  | none => rfl
  | some data =>
    by_cases hf : data.figi = ""
    · simp [hf]
    · simp only [hf, if_false]
      by_cases hlen : REGRESSION_LENGTH ≤ (mergeMonitor df_moex df_today).length
      · simp only [hlen, if_true]
        cases hch : calculate_linreg_channel (mergeMonitor df_moex df_today)
            REGRESSION_LENGTH DEFAULT_STD_DEV_MULT with
        | none => rfl
        | some ch =>
          cases hlast : (mergeMonitor df_moex df_today).getLast? with
          | none => rfl
          | some lc =>
            exact lookup_updateEntry_proj reg ticker t _ _ (fun d => rfl)
      · simp [hlen]

/-! ## Claim C4 -/

/-- C4: every channel stored by `update_channel` is computed with the
analyzer's DEFAULT multiplier 3.5 (the call passes no multiplier argument),
not the configured `STD_DEV_MULTIPLIER = 4.0`: the stored fields satisfy
`upper = regression + 3.5·std` and `lower = regression - 3.5·std`. -/
theorem C4_update_channel_uses_default_multiplier
    (reg : Registry ℝ) (ticker : String) (df_moex df_today : List Candle)
    (data : InstrumentData ℝ)
    (hlk : List.lookup ticker reg = some data)
    (hfig : data.figi ≠ "")
    (hlen : REGRESSION_LENGTH ≤ (mergeMonitor df_moex df_today).length) :
    (let ch := chanOf (mergeMonitor df_moex df_today) REGRESSION_LENGTH DEFAULT_STD_DEV_MULT
     (List.lookup ticker (update_channel reg ticker df_moex df_today)).map
        (fun d => (d.upper, d.lower, d.regression, d.std))
      = some (some (((ch.regression : ℚ) : ℝ) + ch.std * 3.5),
              some (((ch.regression : ℚ) : ℝ) - ch.std * 3.5),
              some (((ch.regression : ℚ) : ℝ)),
              some ch.std))
    ∧ DEFAULT_STD_DEV_MULT = 3.5
    ∧ STD_DEV_MULTIPLIER = 4
    ∧ (3.5 : ℝ) ≠ STD_DEV_MULTIPLIER := by
  have hnl : ¬ ((mergeMonitor df_moex df_today).length < REGRESSION_LENGTH) :=
    not_lt.mpr hlen
  have hne2 : mergeMonitor df_moex df_today ≠ [] := by
    intro h
    rw [h] at hlen
    simp [REGRESSION_LENGTH] at hlen
  obtain ⟨lc, hlast⟩ : ∃ lc, (mergeMonitor df_moex df_today).getLast? = some lc := by
    cases hgl : (mergeMonitor df_moex df_today).getLast? with
    | none => exact absurd (List.getLast?_eq_none_iff.mp hgl) hne2
    | some lc => exact ⟨lc, rfl⟩
  refine ⟨?_, by norm_num [DEFAULT_STD_DEV_MULT], by norm_num [STD_DEV_MULTIPLIER],
    by norm_num [STD_DEV_MULTIPLIER]⟩
  cases hch : calculate_linreg_channel (mergeMonitor df_moex df_today)
      REGRESSION_LENGTH DEFAULT_STD_DEV_MULT with
  | none =>
    rw [calculate_linreg_channel, if_neg hnl] at hch
    exact absurd hch (by simp)
  | some ch =>
    have hchan : chanOf (mergeMonitor df_moex df_today) REGRESSION_LENGTH
        DEFAULT_STD_DEV_MULT = ch := by
      rw [chanOf, hch, Option.getD_some]
    have hup : ch.upper = ((ch.regression : ℚ) : ℝ) + ch.std * 3.5 := by
      rw [calculate_linreg_channel, if_neg hnl, Option.some_inj] at hch
      rw [← hch]
      rfl
    have hlo : ch.lower = ((ch.regression : ℚ) : ℝ) - ch.std * 3.5 := by
      rw [calculate_linreg_channel, if_neg hnl, Option.some_inj] at hch
      rw [← hch]
      rfl
    show (List.lookup ticker (update_channel reg ticker df_moex df_today)).map
        (fun d => (d.upper, d.lower, d.regression, d.std)) = _
    unfold update_channel
    rw [hlk]
    simp only [hfig, if_false, hnl, hlen, if_true, hch, hlast]
    rw [lookup_updateEntry, if_pos rfl, hlk]
    simp only [Option.map_some, setChannelFields, hchan, hup, hlo]
    rfl

def dRT : InstrumentData ℝ :=
  { figi := "t1", name := "T", upper := none, lower := none, regression := none,
    ema50 := none, slope := none, std := none, last_volume := none,
    last_candle_price := none, last_candle_time := none, last_signal_type := none }

def regRT : Registry ℝ := [("T", dRT)]

def dfm200 : List Candle := (List.range 200).map (fun i => { begin := i, close := (i : ℚ), volume := 0 })

theorem C4_witness :
    (List.lookup "T" regRT = some dRT)
    ∧ (dRT.figi ≠ "")
    ∧ (REGRESSION_LENGTH ≤ (mergeMonitor dfm200 []).length)
    ∧ ((let ch := chanOf (mergeMonitor dfm200 []) REGRESSION_LENGTH DEFAULT_STD_DEV_MULT
        (List.lookup "T" (update_channel regRT "T" dfm200 [])).map
           (fun d => (d.upper, d.lower, d.regression, d.std))
         = some (some (((ch.regression : ℚ) : ℝ) + ch.std * 3.5),
                 some (((ch.regression : ℚ) : ℝ) - ch.std * 3.5),
                 some (((ch.regression : ℚ) : ℝ)),
                 some ch.std))
       ∧ DEFAULT_STD_DEV_MULT = 3.5
       ∧ STD_DEV_MULTIPLIER = 4
       ∧ (3.5 : ℝ) ≠ STD_DEV_MULTIPLIER) :=
  ⟨rfl, by simp [dRT], by simp [mergeMonitor, dfm200, REGRESSION_LENGTH],
   C4_update_channel_uses_default_multiplier regRT "T" dfm200 [] dRT rfl
     (by simp [dRT]) (by simp [mergeMonitor, dfm200, REGRESSION_LENGTH])⟩

/-! ## Analyzer lemmas: sums of the synthetic x axis -/

theorem trailing_length (n : ℕ) (l : List α) (h : n ≤ l.length) :
    (trailing n l).length = n := by
  simp only [trailing, List.length_drop]
  omega

theorem trailing_self (n : ℕ) (l : List α) (h : l.length = n) : trailing n l = l := by
  simp [trailing, h]

theorem sumX_eq : ∀ n : ℕ, sumX n = (n : ℚ) * ((n : ℚ) - 1) / 2
  | 0 => by simp [sumX]
  | (m + 1) => by
    rw [sumX, Finset.sum_range_succ,
      show (∑ i ∈ Finset.range m, (i : ℚ)) = sumX m from rfl, sumX_eq m]
    push_cast
    ring

theorem sumX2_eq : ∀ n : ℕ, sumX2 n = (n : ℚ) * ((n : ℚ) - 1) * (2 * (n : ℚ) - 1) / 6
  | 0 => by simp [sumX2]
  | (m + 1) => by
    rw [sumX2, Finset.sum_range_succ,
      show (∑ i ∈ Finset.range m, (i : ℚ) ^ 2) = sumX2 m from rfl, sumX2_eq m]
    push_cast
    ring

theorem lsDenom_eq (n : ℕ) :
    lsDenom n = (n : ℚ) ^ 2 * ((n : ℚ) - 1) * ((n : ℚ) + 1) / 12 := by
  rw [lsDenom, sumX_eq, sumX2_eq]
  ring

theorem lsDenom_pos (n : ℕ) (h2 : 2 ≤ n) : 0 < lsDenom n := by
  rw [lsDenom_eq]
  have hn : (2 : ℚ) ≤ (n : ℚ) := by exact_mod_cast h2
  have h0 : (0 : ℚ) < (n : ℚ) := by linarith
  apply div_pos
  · exact mul_pos (mul_pos (pow_pos h0 2) (by linarith)) (by linarith)
  · norm_num

/-! ## Analyzer lemmas: the normal equations and least-squares optimality -/

theorem sum_residuals_eq_zero (y : List ℚ) (h2 : 2 ≤ y.length) :
    ∑ i ∈ Finset.range y.length,
      (y.getD i 0 - (linregSlope y * (i : ℚ) + linregIntercept y)) = 0 := by
  have hn : y.length ≠ 0 := by omega
  have hnq : ((y.length : ℚ)) ≠ 0 := by exact_mod_cast hn
  rw [Finset.sum_sub_distrib]
  have e2 : ∑ i ∈ Finset.range y.length, (linregSlope y * (i : ℚ) + linregIntercept y)
      = linregSlope y * sumX y.length + (y.length : ℚ) * linregIntercept y := by
    rw [Finset.sum_add_distrib, ← Finset.mul_sum, Finset.sum_const, Finset.card_range,
      nsmul_eq_mul, sumX]
  rw [show (∑ i ∈ Finset.range y.length, y.getD i 0) = sumY y from rfl, e2]
  simp only [linregIntercept, hn, if_false]
  field_simp

theorem sum_x_residuals_eq_zero (y : List ℚ) (h2 : 2 ≤ y.length) :
    ∑ i ∈ Finset.range y.length,
      (i : ℚ) * (y.getD i 0 - (linregSlope y * (i : ℚ) + linregIntercept y)) = 0 := by
  have hn : y.length ≠ 0 := by omega
  have hnq : ((y.length : ℚ)) ≠ 0 := by exact_mod_cast hn
  have hd : lsDenom y.length ≠ 0 := ne_of_gt (lsDenom_pos y.length h2)
  have key : ∀ i ∈ Finset.range y.length,
      (i : ℚ) * (y.getD i 0 - (linregSlope y * (i : ℚ) + linregIntercept y))
        = (i : ℚ) * y.getD i 0
          - (linregSlope y * (i : ℚ) ^ 2 + linregIntercept y * (i : ℚ)) := by
    intro i _
    ring
  rw [Finset.sum_congr rfl key, Finset.sum_sub_distrib, Finset.sum_add_distrib,
    show (∑ i ∈ Finset.range y.length, (i : ℚ) * y.getD i 0) = sumXY y from rfl]
  rw [← Finset.mul_sum, ← Finset.mul_sum,
    show (∑ i ∈ Finset.range y.length, (i : ℚ) ^ 2) = sumX2 y.length from rfl,
    show (∑ i ∈ Finset.range y.length, (i : ℚ)) = sumX y.length from rfl]
  simp only [linregSlope, linregIntercept, hd, if_false, hn]
  rw [lsDenom] at hd ⊢
  field_simp
  ring

theorem sse_decomp (y : List ℚ) (mp cp : ℚ) (h2 : 2 ≤ y.length) :
    sse y mp cp = sse y (linregSlope y) (linregIntercept y)
      + ∑ i ∈ Finset.range y.length,
          ((linregSlope y - mp) * (i : ℚ) + (linregIntercept y - cp)) ^ 2 := by
  have key : ∀ i ∈ Finset.range y.length,
      (y.getD i 0 - (mp * (i : ℚ) + cp)) ^ 2
        = (y.getD i 0 - (linregSlope y * (i : ℚ) + linregIntercept y)) ^ 2
          + ((linregSlope y - mp) * (i : ℚ) + (linregIntercept y - cp)) ^ 2
          + (2 * (linregSlope y - mp))
            * ((i : ℚ) * (y.getD i 0 - (linregSlope y * (i : ℚ) + linregIntercept y)))
          + (2 * (linregIntercept y - cp))
            * (y.getD i 0 - (linregSlope y * (i : ℚ) + linregIntercept y)) := by
    intro i _
    ring
  rw [sse, Finset.sum_congr rfl key, Finset.sum_add_distrib, Finset.sum_add_distrib,
    Finset.sum_add_distrib, ← Finset.mul_sum, ← Finset.mul_sum,
    sum_residuals_eq_zero y h2, sum_x_residuals_eq_zero y h2]
  rw [show (∑ i ∈ Finset.range y.length,
      (y.getD i 0 - (linregSlope y * (i : ℚ) + linregIntercept y)) ^ 2)
      = sse y (linregSlope y) (linregIntercept y) from rfl]
  ring

theorem sse_min (y : List ℚ) (mp cp : ℚ) (h2 : 2 ≤ y.length) :
    sse y (linregSlope y) (linregIntercept y) ≤ sse y mp cp := by
  rw [sse_decomp y mp cp h2]
  exact le_add_of_nonneg_right (Finset.sum_nonneg fun i _ => sq_nonneg _)

theorem sse_nonneg (y : List ℚ) (m c : ℚ) : 0 ≤ sse y m c :=
  Finset.sum_nonneg fun i _ => sq_nonneg _

theorem linregVariance_nonneg (y : List ℚ) : 0 ≤ linregVariance y := by
  rw [linregVariance]
  split_ifs with h
  · exact le_refl 0
  · exact div_nonneg (sse_nonneg y _ _) (by positivity)

/-! ## Analyzer lemmas: the perfectly linear series -/

def linearCandles (a b : ℚ) (n : ℕ) : List Candle :=
  (List.range n).map (fun i => { begin := i, close := a + b * (i : ℚ), volume := 0 })

theorem linearCandles_closes (a b : ℚ) (n : ℕ) :
    (linearCandles a b n).map Candle.close
      = (List.range n).map (fun j : ℕ => a + b * (j : ℚ)) := by
  rw [linearCandles, List.map_map]
  rfl

theorem linear_getD (a b : ℚ) (n i : ℕ) (hi : i < n) :
    ((List.range n).map (fun j : ℕ => a + b * (j : ℚ))).getD i 0 = a + b * (i : ℚ) := by
  rw [List.getD_eq_getElem?_getD, List.getElem?_map, List.getElem?_range hi]
  rfl

theorem sumY_linear (a b : ℚ) (n : ℕ) :
    sumY ((List.range n).map (fun j : ℕ => a + b * (j : ℚ)))
      = (n : ℚ) * a + b * sumX n := by
  rw [sumY]
  simp only [List.length_map, List.length_range]
  rw [Finset.sum_congr rfl (fun i hi => linear_getD a b n i (Finset.mem_range.mp hi)),
    Finset.sum_add_distrib, Finset.sum_const, Finset.card_range, nsmul_eq_mul,
    ← Finset.mul_sum, sumX]

theorem sumXY_linear (a b : ℚ) (n : ℕ) :
    sumXY ((List.range n).map (fun j : ℕ => a + b * (j : ℚ)))
      = a * sumX n + b * sumX2 n := by
  rw [sumXY]
  simp only [List.length_map, List.length_range]
  have key : ∀ i ∈ Finset.range n,
      (i : ℚ) * (((List.range n).map (fun j : ℕ => a + b * (j : ℚ))).getD i 0)
        = a * (i : ℚ) + b * (i : ℚ) ^ 2 := by
    intro i hi
    rw [linear_getD a b n i (Finset.mem_range.mp hi)]
    ring
  rw [Finset.sum_congr rfl key, Finset.sum_add_distrib, ← Finset.mul_sum, ← Finset.mul_sum,
    sumX, sumX2]

theorem linregSlope_linear (a b : ℚ) (n : ℕ) (h2 : 2 ≤ n) :
    linregSlope ((List.range n).map (fun j : ℕ => a + b * (j : ℚ))) = b := by
  have hd : lsDenom n ≠ 0 := ne_of_gt (lsDenom_pos n h2)
  rw [linregSlope]
  simp only [List.length_map, List.length_range]
  rw [if_neg hd, sumXY_linear, sumY_linear, lsDenom] at *
  field_simp
  ring

theorem linregIntercept_linear (a b : ℚ) (n : ℕ) (h2 : 2 ≤ n) :
    linregIntercept ((List.range n).map (fun j : ℕ => a + b * (j : ℚ))) = a := by
  have hn : n ≠ 0 := by omega
  have hnq : ((n : ℚ)) ≠ 0 := by exact_mod_cast hn
  rw [linregIntercept]
  simp only [List.length_map, List.length_range]
  rw [if_neg hn, linregSlope_linear a b n h2, sumY_linear]
  field_simp

theorem sse_linear (a b : ℚ) (n : ℕ) :
    sse ((List.range n).map (fun j : ℕ => a + b * (j : ℚ))) b a = 0 := by
  rw [sse]
  simp only [List.length_map, List.length_range]
  apply Finset.sum_eq_zero
  intro i hi
  rw [linear_getD a b n i (Finset.mem_range.mp hi)]
  ring

theorem linregVariance_linear (a b : ℚ) (n : ℕ) (h2 : 2 ≤ n) :
    linregVariance ((List.range n).map (fun j : ℕ => a + b * (j : ℚ))) = 0 := by
  have hn : ¬ (((List.range n).map (fun j : ℕ => a + b * (j : ℚ))).length = 0) := by
    simp only [List.length_map, List.length_range]
    omega
  rw [linregVariance, if_neg hn, linregSlope_linear a b n h2,
    linregIntercept_linear a b n h2, sse_linear]
  simp

/-! ## Channel projection lemma -/

theorem chanOf_fields (df : List Candle) (n : ℕ) (mult : ℝ) (h : n ≤ df.length) :
    (chanOf df n mult).upper
        = ((regressionValue (trailing n (df.map Candle.close)) : ℚ) : ℝ)
          + linregStd (trailing n (df.map Candle.close)) * mult
    ∧ (chanOf df n mult).lower
        = ((regressionValue (trailing n (df.map Candle.close)) : ℚ) : ℝ)
          - linregStd (trailing n (df.map Candle.close)) * mult
    ∧ (chanOf df n mult).regression = regressionValue (trailing n (df.map Candle.close))
    ∧ (chanOf df n mult).std = linregStd (trailing n (df.map Candle.close))
    ∧ (chanOf df n mult).slope = linregSlope (trailing n (df.map Candle.close))
    ∧ (chanOf df n mult).ema50 = calculate_ema (trailing n (df.map Candle.close)) 50 := by
  have hnl : ¬ (df.length < n) := not_lt.mpr h
  simp only [chanOf, calculate_linreg_channel, hnl, if_false, Option.getD_some]
  trivial

/-! ## Claim C5 -/

/-- C5: for every channel computed with multiplier `k > 0`:
`upper = regression + k·std`, `lower = regression - k·std`, `std ≥ 0`, hence
`upper > lower` whenever `std > 0`, and `upper = lower = regression` when
`std = 0`. -/
theorem C5_channel_band_invariants (df : List Candle) (n : ℕ) (k : ℝ)
    (hlen : n ≤ df.length) (hk : 0 < k) :
    (let ch := chanOf df n k
     ch.upper = ((ch.regression : ℚ) : ℝ) + k * ch.std
     ∧ ch.lower = ((ch.regression : ℚ) : ℝ) - k * ch.std
     ∧ 0 ≤ ch.std
     ∧ (0 < ch.std → ch.lower < ch.upper)
     ∧ (ch.std = 0 →
        ch.upper = ((ch.regression : ℚ) : ℝ) ∧ ch.lower = ((ch.regression : ℚ) : ℝ))) := by
  obtain ⟨hu, hl, hr, hs, -, -⟩ := chanOf_fields df n k hlen
  have hstd : 0 ≤ (chanOf df n k).std := by
    rw [hs, linregStd]
    exact Real.sqrt_nonneg _
  refine ⟨by rw [hu, hr, hs]; ring, by rw [hl, hr, hs]; ring, hstd,
    fun hpos => ?_, fun hzero => ?_⟩
  · rw [hs] at hpos
    have hgt : 0 < linregStd (trailing n (df.map Candle.close)) * k := mul_pos hpos hk
    rw [hu, hl]
    linarith
  · rw [hs] at hzero
    constructor
    · rw [hu, hr, hzero]
      ring
    · rw [hl, hr, hzero]
      ring

def dfC5 : List Candle :=
  [{ begin := 0, close := 0, volume := 0 }, { begin := 1, close := 1, volume := 0 },
   { begin := 2, close := 0, volume := 0 }]

theorem C5_witness :
    (3 ≤ dfC5.length) ∧ ((0 : ℝ) < 1)
    ∧ (let ch := chanOf dfC5 3 1
       ch.upper = ((ch.regression : ℚ) : ℝ) + 1 * ch.std
       ∧ ch.lower = ((ch.regression : ℚ) : ℝ) - 1 * ch.std
       ∧ 0 ≤ ch.std
       ∧ (0 < ch.std → ch.lower < ch.upper)
       ∧ (ch.std = 0 →
          ch.upper = ((ch.regression : ℚ) : ℝ) ∧ ch.lower = ((ch.regression : ℚ) : ℝ))) :=
  ⟨by decide, by norm_num, C5_channel_band_invariants dfC5 3 1 (by decide) (by norm_num)⟩

/-! ## Claim C3 -/

/-- C3: `calculate_linreg_channel` fits the trailing N closes by ordinary
least squares over the synthetic indices 0..N-1 (its slope/intercept minimise
the sum of squared residuals over all candidate lines), sets `regression` to
the fitted value at the last index `m·(N-1) + c`, sets `std` to the population
standard deviation of the residuals (the nonnegative number whose square times
N is the residual sum of squares — divisor N, not N-1); in particular on the
perfectly linear input `close i = a + b·i` the returned slope is exactly `b`,
`std = 0`, and `upper = lower = regression`. -/
theorem C3_ols_channel (df : List Candle) (n : ℕ) (mult : ℝ) (mp cp a b : ℚ)
    (h2 : 2 ≤ n) (hlen : n ≤ df.length) :
    (let y := trailing n (df.map Candle.close)
     let ch := chanOf df n mult
     sse y (linregSlope y) (linregIntercept y) ≤ sse y mp cp
     ∧ ch.slope = linregSlope y
     ∧ ((ch.regression : ℚ)) = linregSlope y * ((n : ℚ) - 1) + linregIntercept y
     ∧ 0 ≤ ch.std
     ∧ ch.std ^ 2 * (n : ℝ) = ((sse y (linregSlope y) (linregIntercept y) : ℚ) : ℝ))
    ∧ (let lch := chanOf (linearCandles a b n) n mult
       lch.slope = b
       ∧ lch.std = 0
       ∧ lch.upper = lch.lower
       ∧ lch.upper = ((lch.regression : ℚ) : ℝ)) := by
  have hylen : (trailing n (df.map Candle.close)).length = n :=
    trailing_length n _ (by rw [List.length_map]; exact hlen)
  have hyl2 : 2 ≤ (trailing n (df.map Candle.close)).length := by omega
  have hn0 : (trailing n (df.map Candle.close)).length ≠ 0 := by omega
  obtain ⟨hu, hl, hr, hs, hm, -⟩ := chanOf_fields df n mult hlen
  constructor
  · refine ⟨sse_min _ mp cp hyl2, hm, ?_, ?_, ?_⟩
    · rw [hr, regressionValue, hylen]
    · rw [hs, linregStd]
      exact Real.sqrt_nonneg _
    · rw [hs, linregStd, Real.sq_sqrt (by exact_mod_cast linregVariance_nonneg _),
        linregVariance, if_neg hn0, hylen]
      push_cast
      field_simp
  · have hlinlen : (linearCandles a b n).length = n := by
      simp [linearCandles]
    have hyeq : trailing n ((linearCandles a b n).map Candle.close)
        = (List.range n).map (fun j : ℕ => a + b * (j : ℚ)) := by
      rw [← linearCandles_closes]
      exact trailing_self n _ (by rw [List.length_map]; exact hlinlen)
    obtain ⟨hu2, hl2, hr2, hs2, hm2, -⟩ :=
      chanOf_fields (linearCandles a b n) n mult (le_of_eq hlinlen.symm)
    have hstd0 : linregStd (trailing n ((linearCandles a b n).map Candle.close)) = 0 := by
      rw [hyeq, linregStd, linregVariance_linear a b n h2]
      simp [Real.sqrt_zero]
    refine ⟨?_, ?_, ?_, ?_⟩
    · rw [hm2, hyeq, linregSlope_linear a b n h2]
    · rw [hs2, hstd0]
    · rw [hu2, hl2, hstd0]
      ring
    · rw [hu2, hr2, hstd0]
      ring

def dfC3 : List Candle :=
  [{ begin := 0, close := 0, volume := 0 }, { begin := 1, close := 1, volume := 0 }]

theorem C3_witness :
    (2 ≤ 2) ∧ (2 ≤ dfC3.length)
    ∧ ((let y := trailing 2 (dfC3.map Candle.close)
        let ch := chanOf dfC3 2 1
        sse y (linregSlope y) (linregIntercept y) ≤ sse y 5 5
        ∧ ch.slope = linregSlope y
        ∧ ((ch.regression : ℚ)) = linregSlope y * ((2 : ℚ) - 1) + linregIntercept y
        ∧ 0 ≤ ch.std
        ∧ ch.std ^ 2 * ((2 : ℕ) : ℝ) = ((sse y (linregSlope y) (linregIntercept y) : ℚ) : ℝ))
       ∧ (let lch := chanOf (linearCandles 3 2 2) 2 1
          lch.slope = 2
          ∧ lch.std = 0
          ∧ lch.upper = lch.lower
          ∧ lch.upper = ((lch.regression : ℚ) : ℝ))) :=
  ⟨by decide, by decide, C3_ols_channel dfC3 2 1 5 5 3 2 (by decide) (by decide)⟩

/-! ## EMA lemmas -/

/-- Reference recursion of the spec: `ema_0 = y_0`,
`ema_t = (1-a)·ema_(t-1) + a·y_t`. -/
def emaAt (ys : List ℚ) (a : ℚ) : ℕ → ℚ
  | 0 => ys.getD 0 0
  | t + 1 => (1 - a) * emaAt ys a t + a * ys.getD (t + 1) 0

theorem emaAt_append (ys : List ℚ) (y a : ℚ) :
    ∀ t, t < ys.length → emaAt (ys ++ [y]) a t = emaAt ys a t
  | 0, ht => by
    simp only [emaAt]
    rw [List.getD_append _ _ _ _ ht]
  | t + 1, ht => by
    simp only [emaAt]
    rw [emaAt_append ys y a t (by omega), List.getD_append _ _ _ _ ht]

theorem ema_foldl (a c : ℚ) (rest : List ℚ) :
    rest.foldl (fun e y => (1 - a) * e + a * y) c = emaAt (c :: rest) a rest.length := by
  induction rest using List.reverseRecOn with
  | nil => rfl
  | append_singleton l y ih =>
    rw [List.foldl_append, List.foldl_cons, List.foldl_nil, ih]
    have h1 : c :: (l ++ [y]) = (c :: l) ++ [y] := rfl
    rw [h1, List.length_append]
    simp only [List.length_cons, List.length_nil, List.length_singleton]
    simp only [emaAt]
    rw [emaAt_append (c :: l) y a l.length (by simp),
      List.getD_append_right (c :: l) [y] 0 (l.length + 1) (by simp)]
    simp

/-! ## Claim C10 -/

/-- C10: the EMA trend value is absent exactly when fewer than 50 closes are
available; otherwise it is the last value of the recursion `ema_0 = y_0`,
`ema_t = (1-a)·ema_(t-1) + a·y_t` with `a = 2/51 = 2/(50+1)`; and the
channel's `ema50` field is this EMA computed over the same trailing N closes
used for the regression. -/
theorem C10_ema_trend (closes cs : List ℚ) (df : List Candle) (n : ℕ) (mult : ℝ)
    (h50 : 50 ≤ closes.length) (hlen : n ≤ df.length) :
    (calculate_ema cs 50 = none ↔ cs.length < 50)
    ∧ calculate_ema closes 50 = some (emaAt closes (2 / 51) (closes.length - 1))
    ∧ (chanOf df n mult).ema50 = calculate_ema (trailing n (df.map Candle.close)) 50 := by
  refine ⟨?_, ?_, (chanOf_fields df n mult hlen).2.2.2.2.2⟩
  · by_cases hc : cs.length < 50
    · simp [calculate_ema, hc]
    · cases cs with
      | nil => exact absurd (by norm_num) hc
      | cons c rest =>
        simp [calculate_ema, hc]
        omega
  · cases closes with
    | nil => simp at h50
    | cons c rest =>
      have hnl : ¬ ((c :: rest).length < 50) := not_lt.mpr h50
      simp only [calculate_ema, hnl, if_false]
      rw [ema_foldl (2 / (((50 : ℕ) : ℚ) + 1)) c rest]
      norm_num [List.length_cons]

theorem C10_witness :
    (50 ≤ (List.replicate 50 (1 : ℚ)).length)
    ∧ (1 ≤ ([{ begin := 0, close := 0, volume := 0 }] : List Candle).length)
    ∧ ((calculate_ema [] 50 = none ↔ ([] : List ℚ).length < 50)
       ∧ calculate_ema (List.replicate 50 (1 : ℚ)) 50
           = some (emaAt (List.replicate 50 (1 : ℚ)) (2 / 51)
               ((List.replicate 50 (1 : ℚ)).length - 1))
       ∧ (chanOf [{ begin := 0, close := 0, volume := 0 }] 1 1).ema50
           = calculate_ema
               (trailing 1 (([{ begin := 0, close := 0, volume := 0 }] : List Candle).map
                 Candle.close)) 50) :=
  ⟨by simp, by simp,
   C10_ema_trend (List.replicate 50 (1 : ℚ)) [] [{ begin := 0, close := 0, volume := 0 }] 1 1
     (by simp) (by simp)⟩

/-! ## Merge lemmas -/

/-- A valid candle series: strictly ascending timestamps (hence unique). -/
def StrictAsc (l : List Candle) : Prop := l.Pairwise (fun a b => a.begin < b.begin)

instance (l : List Candle) : Decidable (StrictAsc l) := by
  unfold StrictAsc
  infer_instance

theorem dedupAux_not_seen :
    ∀ (l : List Candle) (seen : List ℕ) (c : Candle),
      c ∈ dedupKeepFirstAux seen l → c.begin ∉ seen := by
  intro l
  induction l with
  | nil =>
    intro seen c hc
    simp [dedupKeepFirstAux] at hc
  | cons h t ih =>
    intro seen c hc
    simp only [dedupKeepFirstAux] at hc
    by_cases hs : h.begin ∈ seen
    · rw [if_pos hs] at hc
      exact ih seen c hc
    · rw [if_neg hs] at hc
      rcases List.mem_cons.mp hc with rfl | hc2
      · exact hs
      · intro hmem
        exact (ih _ c hc2) (List.mem_cons_of_mem _ hmem)

theorem pairwise_dedupAux :
    ∀ (l : List Candle) (seen : List ℕ),
      (dedupKeepFirstAux seen l).Pairwise (fun a b => a.begin ≠ b.begin) := by
  intro l
  induction l with
  | nil =>
    intro seen
    simp [dedupKeepFirstAux]
  | cons h t ih =>
    intro seen
    simp only [dedupKeepFirstAux]
    by_cases hs : h.begin ∈ seen
    · rw [if_pos hs]
      exact ih seen
    · rw [if_neg hs]
      refine List.Pairwise.cons (fun c hc heq => ?_) (ih _)
      exact dedupAux_not_seen t (h.begin :: seen) c hc (by rw [← heq]; exact List.mem_cons_self _ _)

theorem mem_dedupAux_of_prefix :
    ∀ (pre rest : List Candle) (seen : List ℕ),
      pre.Pairwise (fun a b => a.begin ≠ b.begin) →
      (∀ x ∈ pre, x.begin ∉ seen) →
      ∀ c ∈ pre, c ∈ dedupKeepFirstAux seen (pre ++ rest) := by
  intro pre
  induction pre with
  | nil =>
    intro rest seen _ _ c hc
    simp at hc
  | cons h t ih =>
    intro rest seen hpw hseen c hc
    have hs : h.begin ∉ seen := hseen h (List.mem_cons_self _ _)
    simp only [List.cons_append, dedupKeepFirstAux, if_neg hs]
    rcases List.mem_cons.mp hc with rfl | hc2
    · exact List.mem_cons_self _ _
    · refine List.mem_cons_of_mem _ (ih rest (h.begin :: seen)
        (List.pairwise_cons.mp hpw).2 (fun x hx => ?_) c hc2)
      have hne : h.begin ≠ x.begin := (List.pairwise_cons.mp hpw).1 x hx
      have hnm : x.begin ∉ seen := hseen x (List.mem_cons_of_mem _ hx)
      simp only [List.mem_cons]
      rintro (heq | hmem)
      · exact hne heq.symm
      · exact hnm hmem

theorem pairwise_lt_of_le_ne (l : List Candle)
    (hle : l.Pairwise candleLE) (hne : l.Pairwise fun a b => a.begin ≠ b.begin) :
    StrictAsc l := by
  induction l with
  | nil => exact List.Pairwise.nil
  | cons h t ih =>
    rcases List.pairwise_cons.mp hle with ⟨hle1, hle2⟩
    rcases List.pairwise_cons.mp hne with ⟨hne1, hne2⟩
    exact List.Pairwise.cons (fun c hc => lt_of_le_of_ne (hle1 c hc) (hne1 c hc)) (ih hle2 hne2)

theorem sortByBegin_perm (l : List Candle) : List.Perm (sortByBegin l) l :=
  List.perm_insertionSort candleLE l

theorem mem_sortByBegin (c : Candle) (l : List Candle) : c ∈ sortByBegin l ↔ c ∈ l :=
  (sortByBegin_perm l).mem_iff

theorem strictAsc_sort_of_pairwise_ne (l : List Candle)
    (hne : l.Pairwise fun a b => a.begin ≠ b.begin) : StrictAsc (sortByBegin l) := by
  refine pairwise_lt_of_le_ne _ (List.sorted_insertionSort candleLE l) ?_
  exact ((sortByBegin_perm l).pairwise_iff (fun h => Ne.symm h)).mpr hne

theorem pairwise_ne_dedupKeepLast (l : List Candle) :
    (dedupKeepLast l).Pairwise (fun a b => a.begin ≠ b.begin) := by
  rw [dedupKeepLast]
  exact List.pairwise_reverse.mpr ((pairwise_dedupAux l.reverse []).imp fun h => h.symm)

theorem mem_dedupKeepLast_of_suffix (hist intra : List Candle)
    (hpw : intra.Pairwise fun a b => a.begin ≠ b.begin) (c : Candle) (hc : c ∈ intra) :
    c ∈ dedupKeepLast (hist ++ intra) := by
  rw [dedupKeepLast, List.reverse_append]
  refine List.mem_reverse.mpr ?_
  exact mem_dedupAux_of_prefix intra.reverse hist.reverse []
    (List.pairwise_reverse.mpr (hpw.imp fun h => h.symm))
    (by simp) c (List.mem_reverse.mpr hc)

theorem mem_dedupKeepFirst_of_prefix (hist intra : List Candle)
    (hpw : hist.Pairwise fun a b => a.begin ≠ b.begin) (c : Candle) (hc : c ∈ hist) :
    c ∈ dedupKeepFirst (hist ++ intra) :=
  mem_dedupAux_of_prefix hist intra [] hpw (by simp) c hc

theorem mergeMonitor_nil_left (intra : List Candle) : mergeMonitor [] intra = intra := by
  cases intra <;> simp [mergeMonitor]

theorem mergeMonitor_nil_right (hist : List Candle) : mergeMonitor hist [] = hist := by
  cases hist <;> simp [mergeMonitor]

theorem mergeTicker_nil_left (intra : List Candle) : mergeTicker [] intra = intra := by
  cases intra <;> simp [mergeTicker]

theorem mergeTicker_nil_right (hist : List Candle) : mergeTicker hist [] = hist := by
  cases hist <;> simp [mergeTicker]

/-! ## Claim C2 (corrected) -/

/-- C2 (amended): both merge sites return a strictly-ascending,
timestamp-unique series for valid inputs, and pass an input through unchanged
when the other side is empty; on a timestamp conflict the monitor-path merge
(`update_channel`, `keep='last'`) keeps the INTRADAY candle, but the
`/ticker`-path merge (default `keep='first'`) keeps the HISTORICAL candle —
this last point is where the original claim fails. -/
theorem C2_merge_amended (hist intra : List Candle) (c ch : Candle)
    (hh : StrictAsc hist) (hi : StrictAsc intra)
    (hci : c ∈ intra) (hch : ch ∈ hist) :
    StrictAsc (mergeMonitor hist intra)
    ∧ StrictAsc (mergeTicker hist intra)
    ∧ mergeMonitor [] intra = intra ∧ mergeMonitor hist [] = hist
    ∧ mergeTicker [] intra = intra ∧ mergeTicker hist [] = hist
    ∧ c ∈ mergeMonitor hist intra
    ∧ ch ∈ mergeTicker hist intra := by
  have hhne : hist.Pairwise (fun a b => a.begin ≠ b.begin) := hh.imp fun hab => Nat.ne_of_lt hab
  have hine : intra.Pairwise (fun a b => a.begin ≠ b.begin) := hi.imp fun hab => Nat.ne_of_lt hab
  refine ⟨?_, ?_, mergeMonitor_nil_left intra, mergeMonitor_nil_right hist,
    mergeTicker_nil_left intra, mergeTicker_nil_right hist, ?_, ?_⟩
  · rw [mergeMonitor]
    split_ifs with h1 h2 h3
    · exact strictAsc_sort_of_pairwise_ne _ (pairwise_ne_dedupKeepLast _)
    · exact hh
    · exact hi
    · exact List.Pairwise.nil
  · rw [mergeTicker]
    split_ifs with h1 h2
    · exact strictAsc_sort_of_pairwise_ne _ (pairwise_dedupAux _ [])
    · exact hi
    · exact hh
  · by_cases hhe : hist = []
    · rw [hhe, mergeMonitor_nil_left]
      exact hci
    · have h1 : 0 < hist.length := List.length_pos.mpr hhe
      have h2 : 0 < intra.length := List.length_pos.mpr (List.ne_nil_of_mem hci)
      rw [mergeMonitor, if_pos ⟨h1, h2⟩, mem_sortByBegin]
      exact mem_dedupKeepLast_of_suffix hist intra hine c hci
  · by_cases hie : intra = []
    · rw [hie, mergeTicker_nil_right]
      exact hch
    · have h1 : 0 < hist.length := List.length_pos.mpr (List.ne_nil_of_mem hch)
      have h2 : 0 < intra.length := List.length_pos.mpr hie
      rw [mergeTicker, if_pos ⟨h1, h2⟩, mem_sortByBegin]
      exact mem_dedupKeepFirst_of_prefix hist intra hhne ch hch

/-- C2 counterexample: on the `/ticker` merge path, when both sources hold a
candle with the same timestamp, the HISTORICAL (MOEX) candle survives and the
intraday (Tinkoff) candle is dropped — the original claim asserts the opposite
for this merge site. -/
theorem C2_counterexample :
    mergeTicker [{ begin := 0, close := 1, volume := 0 }]
        [{ begin := 0, close := 2, volume := 0 }]
      = [{ begin := 0, close := 1, volume := 0 }]
    ∧ ({ begin := 0, close := 2, volume := 0 } : Candle)
        ∉ mergeTicker [{ begin := 0, close := 1, volume := 0 }]
            [{ begin := 0, close := 2, volume := 0 }] := by
  decide

theorem C2_witness :
    StrictAsc [({ begin := 0, close := 1, volume := 0 } : Candle)]
    ∧ StrictAsc [({ begin := 1, close := 2, volume := 0 } : Candle)]
    ∧ ({ begin := 1, close := 2, volume := 0 } : Candle)
        ∈ [({ begin := 1, close := 2, volume := 0 } : Candle)]
    ∧ ({ begin := 0, close := 1, volume := 0 } : Candle)
        ∈ [({ begin := 0, close := 1, volume := 0 } : Candle)]
    ∧ (StrictAsc (mergeMonitor [{ begin := 0, close := 1, volume := 0 }]
          [{ begin := 1, close := 2, volume := 0 }])
       ∧ StrictAsc (mergeTicker [{ begin := 0, close := 1, volume := 0 }]
           [{ begin := 1, close := 2, volume := 0 }])
       ∧ mergeMonitor [] [{ begin := 1, close := 2, volume := 0 }]
           = [{ begin := 1, close := 2, volume := 0 }]
       ∧ mergeMonitor [{ begin := 0, close := 1, volume := 0 }] []
           = [{ begin := 0, close := 1, volume := 0 }]
       ∧ mergeTicker [] [{ begin := 1, close := 2, volume := 0 }]
           = [{ begin := 1, close := 2, volume := 0 }]
       ∧ mergeTicker [{ begin := 0, close := 1, volume := 0 }] []
           = [{ begin := 0, close := 1, volume := 0 }]
       ∧ ({ begin := 1, close := 2, volume := 0 } : Candle)
           ∈ mergeMonitor [{ begin := 0, close := 1, volume := 0 }]
               [{ begin := 1, close := 2, volume := 0 }]
       ∧ ({ begin := 0, close := 1, volume := 0 } : Candle)
           ∈ mergeTicker [{ begin := 0, close := 1, volume := 0 }]
               [{ begin := 1, close := 2, volume := 0 }]) :=
  ⟨by decide, by decide, by decide, by decide,
   C2_merge_amended [{ begin := 0, close := 1, volume := 0 }]
     [{ begin := 1, close := 2, volume := 0 }]
     { begin := 1, close := 2, volume := 0 } { begin := 0, close := 1, volume := 0 }
     (by decide) (by decide) (by decide) (by decide)⟩

/-! ## Snapshot lemmas -/

/-- Every registry field of an instrument except `last_signal_type`. -/
def channelFieldsOf (d : InstrumentData α) :
    String × String × Option α × Option α × Option α × Option α × Option α × Option α
      × Option α × Option α × Option ℕ :=
  (d.figi, d.name, d.upper, d.lower, d.regression, d.ema50, d.slope, d.std,
   d.last_volume, d.last_candle_price, d.last_candle_time)

theorem lookup_setSignal_proj {β : Type} (reg : Registry α) (t k : String) (s : Option Sig)
    (proj : InstrumentData α → β)
    (hf : ∀ d, proj { d with last_signal_type := s } = proj d) :
    (List.lookup k (setSignal reg t s)).map proj = (List.lookup k reg).map proj :=
  lookup_updateEntry_proj reg t k _ proj hf

theorem extremesStep_frame (f2t : List (String × String))
    (st : Registry ℚ × List (ExtremeEntry ℚ) × List (ExtremeEntry ℚ))
    (fp : String × ℚ) (k : String) :
    (List.lookup k (extremesStep f2t st fp).1).map channelFieldsOf
      = (List.lookup k st.1).map channelFieldsOf := by
  unfold extremesStep
  repeat' split
  all_goals first
    | rfl
    | (apply lookup_setSignal_proj <;> exact fun d => rfl)

theorem extremes_fold_frame (f2t : List (String × String)) (prices : List (String × ℚ)) :
    ∀ (st : Registry ℚ × List (ExtremeEntry ℚ) × List (ExtremeEntry ℚ)) (k : String),
      (List.lookup k (prices.foldl (extremesStep f2t) st).1).map channelFieldsOf
        = (List.lookup k st.1).map channelFieldsOf := by
  induction prices with
  | nil => intro st k; rfl
  | cons p ps ih =>
    intro st k
    rw [List.foldl_cons, ih (extremesStep f2t st p) k, extremesStep_frame]

/-! ## Claim C6 (corrected) -/

/-- C6 (amended): `send_periodic_summary` is a pure read — the registry it
leaves behind is exactly the registry it was given (and it emits no breakout
event; it only builds digest lists).  `get_current_extremes` also emits no
breakout event and changes no registry field OTHER than `last_signal_type`,
but — contrary to the original claim — it DOES write `last_signal_type` for
polled instruments priced outside their channel (see the counterexample). -/
theorem C6_snapshot_frame (reg : Registry ℚ) (f2t : List (String × String))
    (prices : List (String × ℚ)) (t : String) :
    (List.lookup t (get_current_extremes reg f2t prices).1).map channelFieldsOf
      = (List.lookup t reg).map channelFieldsOf
    ∧ (send_periodic_summary reg prices).1 = reg := by
  exact ⟨extremes_fold_frame f2t prices (reg, [], []) t, rfl⟩

/-- C6 counterexample: with one instrument whose channel is `[0, 2]`, signal
state `None`, and one polled price `3 > upper`, `get_current_extremes` returns
a registry different from the one it was given (it set `last_signal_type` to
'up') — refuting "the registry is identical before and after a snapshot". -/
theorem C6_counterexample :
    (get_current_extremes regQ [("f", "A")] [("f", (3 : ℚ))]).1 ≠ regQ
    ∧ (List.lookup "A" (get_current_extremes regQ [("f", "A")] [("f", (3 : ℚ))]).1).map
        (fun d => d.last_signal_type) = some (some Sig.up)
    ∧ (List.lookup "A" regQ).map (fun d => d.last_signal_type) = some none := by
  decide

end BotMoex
